import Mathlib

/-!
Verification of the hubspot-fun repository's entity-resolution scripts.

The JavaScript sources are shallowly embedded as executable Lean functions:
  * `normalize-phone-number.js` — `normalizePhoneNumber`, the per-field update
    payload construction, and the update-call decision;
  * `dedupe-contact.js` — the normalized subject, the eight-step match strategy
    cascade, survivor selection by analytics timestamp, and the run result;
  * `dedupe-company.js` — `levenshtein`, `nameSimilarity`, `retryWithBackoff`,
    and the merge loop with the previously-merged skip rule.
External collaborators (the CRM store, the HTTP client) are modelled as
environments supplying the responses each call site would receive; JavaScript
strings are modelled as `String`/`List Char` (ASCII case folding), and the
parsed value of a datetime property as `Option Int` milliseconds.
-/

namespace Hubspot

/-- JavaScript `String.prototype.trim` on a character list: drop whitespace
from both ends (used by the scripts via `.trim()`). -/
def jsTrimL (l : List Char) : List Char :=
  ((l.dropWhile Char.isWhitespace).reverse.dropWhile Char.isWhitespace).reverse

/-- JavaScript `s.trim()` on strings. -/
def jsTrim (s : String) : String := String.mk (jsTrimL s.data)

/-- JavaScript `s.toLowerCase()` (ASCII model). -/
def toLowerStr (s : String) : String := String.mk (s.data.map Char.toLower)

/-- JavaScript `s.replace(/\D/g, '')`: keep only decimal digits. -/
def digitsOnly (s : String) : String := String.mk (s.data.filter Char.isDigit)

/-- JavaScript `s.split(sep)` for a single-character separator, on lists. -/
def splitOnCharL (c : Char) : List Char → List (List Char)
  | [] => [[]]
  | x :: xs =>
    let r := splitOnCharL c xs
    if x = c then [] :: r else (x :: r.headD []) :: r.tail

/-- JavaScript `s.split(sep)` for a single-character separator. -/
def jsSplit (sep : Char) (s : String) : List String :=
  (splitOnCharL sep s.data).map String.mk

/-- dedupe-contact.js line 62: `normalizeUsername`: lower-case then remove
every `.` character. -/
def normalizeUsername (s : String) : String :=
  String.mk ((toLowerStr s).data.filter (fun ch => ch ≠ '.'))

/-- normalize-phone-number.js lines 87–92, `normalizePhoneNumber`: strip all
non-digit characters and trim; a 10-digit result gets a `+1` prefix, an
11-digit result starting with `1` gets a `+` prefix, anything else yields no
normalized value (`null`). -/
def normalizePhoneNumber (input : String) : Option String :=
  let cleaned := jsTrimL (input.data.filter Char.isDigit)
  if cleaned.length = 10 then some (String.mk ('+' :: '1' :: cleaned))
  else if cleaned.length = 11 ∧ cleaned.headD ' ' = '1' then
    some (String.mk ('+' :: cleaned))
  else none

/-- normalize-phone-number.js lines 21–26: the phone fields the script
normalizes, in loop order. -/
def PHONE_FIELDS : List String :=
  ["phone", "mobilephone", "hq_phone_number", "alt_phone_number"]

/-- normalize-phone-number.js lines 46–66: walk the phone fields in order and
collect `field ↦ normalized` entries exactly for fields that are present,
non-empty, normalizable, and whose normalized value differs from the raw
stored value. -/
def buildUpdatedProps (props : String → Option String) : List String → List (String × String)
  | [] => []
  | f :: rest =>
    match props f with
    | none => buildUpdatedProps props rest
    | some raw =>
      if raw = "" then buildUpdatedProps props rest
      else
        match normalizePhoneNumber raw with
        | none => buildUpdatedProps props rest
        | some norm =>
          if norm = raw then buildUpdatedProps props rest
          else (f, norm) :: buildUpdatedProps props rest

/-- Outcome of one phone-normalization run: the update payload, how many
update calls were issued, and the stored record after the run. -/
structure PhoneRun where
  payload : List (String × String)
  updateCalls : Nat
  finalStore : String → Option String

/-- normalize-phone-number.js lines 28–82, `main`: fetch the contact's phone
fields, build the update payload, and call the store update once exactly when
the payload is non-empty (lines 69–74). The stored record afterwards carries
the payload values over the original ones. -/
def phoneMain (fetch : Except String (String → Option String)) : Except String PhoneRun :=
  match fetch with
  | .error e => .error e
  | .ok props =>
    let updatedProps := buildUpdatedProps props PHONE_FIELDS
    if updatedProps.isEmpty then
      .ok ⟨updatedProps, 0, props⟩
    else
      .ok ⟨updatedProps, 1, fun f =>
        match updatedProps.lookup f with
        | some v => some v
        | none => props f⟩

/-! ### Character and trimming lemmas -/

theorem digit_not_ws (c : Char) (h : c.isDigit = true) : c.isWhitespace = false := by
  by_contra hw
  rw [Bool.not_eq_false] at hw
  simp only [Char.isWhitespace, Bool.or_eq_true, decide_eq_true_eq] at hw
  rcases hw with ((rfl | rfl) | rfl) | rfl <;> exact absurd h (by decide)

theorem dropWhile_eq_self_of_all {p : Char → Bool} (l : List Char)
    (h : ∀ c ∈ l, p c = false) : l.dropWhile p = l := by
  cases l with
  | nil => rfl
  | cons a t => simp [List.dropWhile_cons, h a (by simp)]

theorem jsTrimL_eq_self_of_digits (l : List Char)
    (h : ∀ c ∈ l, c.isDigit = true) : jsTrimL l = l := by
  unfold jsTrimL
  rw [dropWhile_eq_self_of_all l (fun c hc => digit_not_ws c (h c hc))]
  rw [dropWhile_eq_self_of_all l.reverse
    (fun c hc => digit_not_ws c (h c (List.mem_reverse.mp hc)))]
  exact List.reverse_reverse l

theorem jsTrimL_subset (l : List Char) : ∀ c ∈ jsTrimL l, c ∈ l := by
  intro c hc
  unfold jsTrimL at hc
  rw [List.mem_reverse] at hc
  have h1 := (List.dropWhile_sublist (l := (l.dropWhile Char.isWhitespace).reverse)
    (p := Char.isWhitespace)).mem hc
  rw [List.mem_reverse] at h1
  exact (List.dropWhile_sublist (l := l) (p := Char.isWhitespace)).mem h1

theorem cleaned_digits (x : String) :
    ∀ c ∈ jsTrimL (x.data.filter Char.isDigit), c.isDigit = true := by
  intro c hc
  have := jsTrimL_subset _ c hc
  exact (List.mem_filter.mp this).2

theorem filter_digits_eq_self (l : List Char) (h : ∀ c ∈ l, c.isDigit = true) :
    l.filter Char.isDigit = l :=
  List.filter_eq_self.mpr h

/-- Claim C9: `normalizePhoneNumber` is idempotent (normalizing an
already-normalized value returns it unchanged), maps `"(305) 391-4414"` and
`"13053914414"` to `"+13053914414"`, and yields no normalized value for any
input whose digit content has length 7. -/
theorem normalize_phone_props :
    (∀ x y : String, normalizePhoneNumber x = some y → normalizePhoneNumber y = some y) ∧
    normalizePhoneNumber "(305) 391-4414" = some "+13053914414" ∧
    normalizePhoneNumber "13053914414" = some "+13053914414" ∧
    (∀ s : String, (s.data.filter Char.isDigit).length = 7 →
      normalizePhoneNumber s = none) := by
  refine ⟨?_, by decide, by decide, ?_⟩
  · intro x y h
    unfold normalizePhoneNumber at h
    dsimp only at h
    have hdig := cleaned_digits x
    set cleaned := jsTrimL (x.data.filter Char.isDigit) with hc
    split at h
    case isTrue h10 =>
      rw [Option.some_inj] at h
      subst h
      unfold normalizePhoneNumber
      have hdata : (String.mk ('+' :: '1' :: cleaned)).data = '+' :: '1' :: cleaned := rfl
      rw [hdata]
      have hfil : ('+' :: '1' :: cleaned).filter Char.isDigit = '1' :: cleaned := by
        simp [List.filter_cons, filter_digits_eq_self cleaned hdig]
      rw [hfil]
      have htrim : jsTrimL ('1' :: cleaned) = '1' :: cleaned := by
        apply jsTrimL_eq_self_of_digits
        intro c hc2
        rcases List.mem_cons.mp hc2 with rfl | hmem
        · decide
        · exact hdig c hmem
      rw [htrim]
      have hlen : ('1' :: cleaned).length = 11 := by simp [h10]
      rw [if_neg (by omega), if_pos ⟨hlen, rfl⟩]
    case isFalse h10 =>
      split at h
      case isTrue h11 =>
        rw [Option.some_inj] at h
        subst h
        unfold normalizePhoneNumber
        have hdata : (String.mk ('+' :: cleaned)).data = '+' :: cleaned := rfl
        rw [hdata]
        have hfil : ('+' :: cleaned).filter Char.isDigit = cleaned := by
          simp [List.filter_cons, filter_digits_eq_self cleaned hdig]
        rw [hfil]
        rw [jsTrimL_eq_self_of_digits cleaned hdig]
        rw [if_neg (by omega : ¬cleaned.length = 10), if_pos h11]
      case isFalse => exact absurd h (by simp)
  · intro s h
    unfold normalizePhoneNumber
    dsimp only
    rw [jsTrimL_eq_self_of_digits _ (fun c hc => (List.mem_filter.mp hc).2)]
    rw [if_neg (by omega), if_neg (by omega)]

/-- Witness for C9: the idempotence and 7-digit parts applied at concrete
inputs. -/
theorem normalize_phone_props_witness :
    normalizePhoneNumber "+13053914414" = some "+13053914414" ∧
    normalizePhoneNumber "5551234" = none :=
  ⟨normalize_phone_props.1 "13053914414" "+13053914414" (by decide),
   normalize_phone_props.2.2.2 "5551234" (by decide)⟩

/-- Example stored record used to witness the phone-normalization claims. -/
def propsEx : String → Option String :=
  fun f => if f = "phone" then some "(305) 391-4414"
           else if f = "mobilephone" then some "+13053914414" else none

/-- Claim C10: the phone-normalization flow performs no redundant writes:
every payload entry comes from a phone field whose stored raw value is
present, non-empty, normalizable, and different from its normalized value;
the update call is issued exactly once when the payload is non-empty and not
at all when it is empty, in which case the stored record is untouched. -/
theorem phone_update_frame :
    (∀ (props : String → Option String) (fields : List String) (f v : String),
        (f, v) ∈ buildUpdatedProps props fields →
        f ∈ fields ∧ ∃ raw, props f = some raw ∧ raw ≠ "" ∧
          normalizePhoneNumber raw = some v ∧ v ≠ raw) ∧
    (∀ (props : String → Option String) (run : PhoneRun),
        phoneMain (.ok props) = .ok run →
        run.updateCalls ≤ 1 ∧
        (run.updateCalls = 1 ↔ run.payload ≠ []) ∧
        run.payload = buildUpdatedProps props PHONE_FIELDS ∧
        (run.payload = [] → ∀ f, run.finalStore f = props f)) := by
  constructor
  · intro props fields
    induction fields with
    | nil => intro f v h; exact absurd h (by simp [buildUpdatedProps])
    | cons g rest ih =>
      intro f v h
      unfold buildUpdatedProps at h
      split at h
      next =>
        obtain ⟨hmem, hw⟩ := ih f v h
        exact ⟨by simp [hmem], hw⟩
      next raw hg =>
        split at h
        next =>
          obtain ⟨hmem, hw⟩ := ih f v h
          exact ⟨by simp [hmem], hw⟩
        next hraw =>
          split at h
          next =>
            obtain ⟨hmem, hw⟩ := ih f v h
            exact ⟨by simp [hmem], hw⟩
          next norm hn =>
            split at h
            next =>
              obtain ⟨hmem, hw⟩ := ih f v h
              exact ⟨by simp [hmem], hw⟩
            next heq =>
              rcases List.mem_cons.mp h with hpair | htail
              · rw [Prod.mk.injEq] at hpair
                obtain ⟨rfl, rfl⟩ := hpair
                exact ⟨by simp, raw, hg, hraw, hn, heq⟩
              · obtain ⟨hmem, hw⟩ := ih f v htail
                exact ⟨by simp [hmem], hw⟩
  · intro props run h
    simp only [phoneMain] at h
    split at h
    next hemp =>
      rw [Except.ok.injEq] at h
      subst h
      refine ⟨by simp, by simpa using List.isEmpty_iff.mp hemp, rfl, fun _ f => rfl⟩
    next hemp =>
      rw [Except.ok.injEq] at h
      subst h
      have hne : buildUpdatedProps props PHONE_FIELDS ≠ [] := by
        intro hx
        exact hemp (by rw [hx]; rfl)
      exact ⟨le_refl 1, iff_of_true rfl hne, rfl, fun hx => absurd hx hne⟩

/-- Witness for C10: the payload-entry characterization applied to the
`phone` entry of a concrete stored record. -/
theorem phone_update_frame_witness :
    "phone" ∈ PHONE_FIELDS ∧ ∃ raw, propsEx "phone" = some raw ∧ raw ≠ "" ∧
      normalizePhoneNumber raw = some "+13053914414" ∧ "+13053914414" ≠ raw :=
  phone_update_frame.1 propsEx PHONE_FIELDS "phone" "+13053914414" (by decide)

/-! ### dedupe-company.js: Levenshtein distance and name similarity -/

/-- dedupe-company.js lines 12–24, inner loop: build the entries of matrix row
`i+1` left to right. `bi` is `b[i]`; the remaining subject characters are
`a[j…]`; `pj1 :: prest` are the previous row's entries from column `j+1`
(`matrix[i][j+1…]`); `diag` is `matrix[i][j]` and `left` the entry just
written (`matrix[i+1][j]`). Each cell is the character-match diagonal or
`min(up+1, left+1, diag+1)` exactly as in the source. -/
def levRowAux (bi : Char) : List Char → List Nat → Nat → Nat → List Nat
  | [], _, _, _ => []
  | _ :: _, [], _, _ => []
  | aj :: arest, pj1 :: prest, diag, left =>
    let cur := if bi = aj then diag else min (pj1 + 1) (min (left + 1) (diag + 1))
    cur :: levRowAux bi arest prest pj1 cur

/-- dedupe-company.js lines 12–24, outer loop: fold over the characters of
`b`, producing row `i+1` (whose column 0 holds `i+1`, line 10) from row `i`,
and return the final matrix row. -/
def levFold (a : List Char) : List Char → Nat → List Nat → List Nat
  | [], _, prev => prev
  | bi :: brest, i, prev =>
    levFold a brest (i + 1) ((i + 1) :: levRowAux bi a prev.tail (prev.headD 0) (i + 1))

/-- dedupe-company.js lines 9–26, `levenshtein(a, b)`: dynamic-programming
edit distance; row 0 is `[0, 1, …, a.length]` (line 11), and the result is
`matrix[b.length][a.length]` (line 25). -/
def levenshtein (x y : String) : Nat :=
  (levFold x.data y.data 0 (List.range (x.data.length + 1))).getD x.data.length 0

/-- Reference form of the matrix recurrence: `levCell a b i j` is
`matrix[i][j]` of the source's DP (row `i` over `b`, column `j` over `a`).
Helper carrying the previous row as a function. -/
def levCellRow (a b : List Char) (i : Nat) (prev : Nat → Nat) : Nat → Nat
  | 0 => i + 1
  | j + 1 =>
    if b.getD i ' ' = a.getD j ' ' then prev j
    else min (prev (j + 1) + 1) (min (levCellRow a b i prev j + 1) (prev j + 1))

/-- Reference form of the matrix recurrence (see `levCellRow`). -/
def levCell (a b : List Char) : Nat → Nat → Nat
  | 0 => fun j => j
  | i + 1 => levCellRow a b i (levCell a b i)

theorem levCell_zero (a b : List Char) (j : Nat) : levCell a b 0 j = j := rfl

theorem levCell_succ_zero (a b : List Char) (i : Nat) : levCell a b (i + 1) 0 = i + 1 := rfl

theorem levCell_succ_succ (a b : List Char) (i j : Nat) :
    levCell a b (i + 1) (j + 1) =
      if b.getD i ' ' = a.getD j ' ' then levCell a b i j
      else min (levCell a b i (j + 1) + 1)
        (min (levCell a b (i + 1) j + 1) (levCell a b i j + 1)) := rfl

theorem levRowAux_spec (a b : List Char) (i : Nat) :
    ∀ (k j : Nat), j + k = a.length →
      levRowAux (b.getD i ' ') (a.drop j)
          ((List.range' (j + 1) k).map (levCell a b i))
          (levCell a b i j) (levCell a b (i + 1) j) =
        (List.range' (j + 1) k).map (levCell a b (i + 1)) := by
  intro k
  induction k with
  | zero =>
    intro j hj
    have : a.drop j = [] := by
      apply List.drop_eq_nil_of_le
      omega
    simp [this, levRowAux]
  | succ k ih =>
    intro j hj
    have hjlt : j < a.length := by omega
    rw [List.drop_eq_getElem_cons hjlt]
    rw [List.range'_succ (j + 1) k 1]
    rw [List.map_cons, List.map_cons]
    show (let cur := if b.getD i ' ' = a[j] then levCell a b i j
            else min (levCell a b i (j + 1) + 1)
              (min (levCell a b (i + 1) j + 1) (levCell a b i j + 1));
          cur :: levRowAux (b.getD i ' ') (a.drop (j + 1))
            ((List.range' (j + 1 + 1) k).map (levCell a b i)) (levCell a b i (j + 1)) cur) =
        levCell a b (i + 1) (j + 1) :: (List.range' (j + 1 + 1) k).map (levCell a b (i + 1))
    have hget : a.getD j ' ' = a[j] := List.getD_eq_getElem a ' ' hjlt
    have hcur : (if b.getD i ' ' = a[j] then levCell a b i j
        else min (levCell a b i (j + 1) + 1)
          (min (levCell a b (i + 1) j + 1) (levCell a b i j + 1))) =
        levCell a b (i + 1) (j + 1) := by
      rw [levCell_succ_succ, hget]
    dsimp only
    rw [hcur]
    rw [ih (j + 1) (by omega)]

theorem levFold_spec (a b : List Char) :
    ∀ (k i : Nat), i + k = b.length →
      levFold a (b.drop i) i ((List.range' 0 (a.length + 1)).map (levCell a b i)) =
        (List.range' 0 (a.length + 1)).map (levCell a b b.length) := by
  intro k
  induction k with
  | zero =>
    intro i hi
    have hd : b.drop i = [] := by
      apply List.drop_eq_nil_of_le
      omega
    rw [hd]
    have : i = b.length := by omega
    rw [this, levFold]
  | succ k ih =>
    intro i hi
    have hilt : i < b.length := by omega
    rw [List.drop_eq_getElem_cons hilt]
    rw [levFold]
    have hrange : List.range' 0 (a.length + 1) = 0 :: List.range' 1 a.length := by
      rw [List.range'_succ 0 a.length 1]
    have hprev : (List.range' 0 (a.length + 1)).map (levCell a b i) =
        levCell a b i 0 :: (List.range' 1 a.length).map (levCell a b i) := by
      rw [hrange, List.map_cons]
    rw [hprev, List.tail_cons, List.headD_cons]
    have hget : (b[i] : Char) = b.getD i ' ' := (List.getD_eq_getElem b ' ' hilt).symm
    rw [hget]
    have haux := levRowAux_spec a b i a.length 0 (by omega)
    rw [List.drop_zero] at haux
    simp only [Nat.zero_add] at haux
    rw [levCell_succ_zero a b i] at haux
    rw [haux]
    have hnext : ((i + 1) :: (List.range' 1 a.length).map (levCell a b (i + 1))) =
        (List.range' 0 (a.length + 1)).map (levCell a b (i + 1)) := by
      rw [hrange, List.map_cons, levCell_succ_zero]
    rw [hnext]
    exact ih (i + 1) (by omega)

theorem levenshtein_eq_levCell (x y : String) :
    levenshtein x y = levCell x.data y.data y.data.length x.data.length := by
  unfold levenshtein
  have h0 : List.range (x.data.length + 1) =
      (List.range' 0 (x.data.length + 1)).map (levCell x.data y.data 0) := by
    rw [show levCell x.data y.data 0 = id from rfl, List.map_id, List.range_eq_range']
  rw [h0]
  have := levFold_spec x.data y.data y.data.length 0 (by omega)
  rw [List.drop_zero] at this
  rw [this]
  rw [List.getD_eq_getElem _ 0 (by simp)]
  rw [List.getElem_map]
  congr 1
  have := List.getElem_range'_1 (n := 0) (m := x.data.length + 1) x.data.length (by simp)
  omega

theorem levCell_symm (a b : List Char) : ∀ i j, levCell a b i j = levCell b a j i := by
  intro i
  induction i with
  | zero =>
    intro j
    cases j with
    | zero => rfl
    | succ j => rw [levCell_zero, levCell_succ_zero]
  | succ i ih =>
    intro j
    induction j with
    | zero => rw [levCell_succ_zero, levCell_zero]
    | succ j ihj =>
      rw [levCell_succ_succ, levCell_succ_succ]
      rw [← ih j, ← ih (j + 1), ← ihj]
      by_cases hc : b.getD i ' ' = a.getD j ' '
      · rw [if_pos hc, if_pos hc.symm]
      · rw [if_neg hc, if_neg (fun hx => hc hx.symm)]
        omega

theorem take_succ_getD (l : List Char) (i : Nat) (h : i < l.length) :
    l.take (i + 1) = l.take i ++ [l.getD i ' '] := by
  rw [List.getD_eq_getElem l ' ' h]
  rw [List.take_succ]
  congr 1
  rw [List.getElem?_eq_getElem h]
  rfl

theorem levCell_eq_zero_iff (a b : List Char) :
    ∀ i j, i ≤ b.length → j ≤ a.length → (levCell a b i j = 0 ↔ b.take i = a.take j) := by
  intro i
  induction i with
  | zero =>
    intro j _ hja
    rw [levCell_zero, List.take_zero]
    constructor
    · rintro rfl; rfl
    · intro h
      have := congrArg List.length h
      simp [List.length_take] at this
      omega
  | succ i ih =>
    intro j hib hja
    cases j with
    | zero =>
      rw [levCell_succ_zero, List.take_zero]
      constructor
      · intro h; exact absurd h (by omega)
      · intro h
        have hlen := congrArg List.length h
        rw [List.length_take] at hlen
        simp only [List.length_nil] at hlen
        omega
    | succ j =>
      rw [levCell_succ_succ]
      rw [take_succ_getD b i (by omega), take_succ_getD a j (by omega)]
      by_cases hc : b.getD i ' ' = a.getD j ' '
      · rw [if_pos hc, hc]
        rw [ih j (by omega) (by omega)]
        exact (List.append_left_inj _).symm
      · rw [if_neg hc]
        constructor
        · intro h; exact absurd h (by omega)
        · intro h
          obtain ⟨-, hs⟩ := List.append_inj' h rfl
          rw [List.cons.injEq] at hs
          exact absurd hs.1 hc

/-- dedupe-company.js lines 29–33, `nameSimilarity`: 0 when either name is
empty (falsy), otherwise `1 − levenshtein(lowered names) / max(len1, len2)`
over the original lengths, as exact rational arithmetic. -/
def nameSimilarity (name1 name2 : String) : ℚ :=
  if name1 = "" ∨ name2 = "" then 0
  else 1 - (levenshtein (toLowerStr name1) (toLowerStr name2) : ℚ) /
    ((max name1.length name2.length : Nat) : ℚ)

/-- Modelled from the spec: the fuzzy-name tier of the company matching logic
is elided from dedupe-company.js (lines 87–88 say "unchanged..."); per the
spec it accepts a candidate exactly when the similarity exceeds the 0.9
threshold. -/
def fuzzyNameAccepted (a b : String) : Bool := decide (nameSimilarity a b > 9 / 10)

theorem levenshtein_symm_general (x y : String) : levenshtein x y = levenshtein y x := by
  rw [levenshtein_eq_levCell, levenshtein_eq_levCell, levCell_symm]

theorem levenshtein_eq_zero_iff_general (x y : String) : levenshtein x y = 0 ↔ x = y := by
  rw [levenshtein_eq_levCell]
  rw [levCell_eq_zero_iff _ _ _ _ (le_refl _) (le_refl _)]
  rw [List.take_length, List.take_length]
  constructor
  · intro h; exact (String.ext h).symm
  · rintro rfl; rfl

/-- Claim C5: `levenshtein` is symmetric; over lower-cased strings it is zero
exactly when the lower-cased strings are equal; `nameSimilarity` is exactly
`1 − distance / max(len(a), len(b))` over the lower-cased names for non-empty
inputs; and on "Acme Inc" vs "Acme Incorporated" it evaluates exactly to
`8/17`, which fails the 0.9 acceptance threshold. -/
theorem levenshtein_similarity_props :
    (∀ a b : String, levenshtein a b = levenshtein b a) ∧
    (∀ a b : String,
      levenshtein (toLowerStr a) (toLowerStr b) = 0 ↔ toLowerStr a = toLowerStr b) ∧
    (∀ a b : String, ¬a = "" → ¬b = "" →
      nameSimilarity a b = 1 - (levenshtein (toLowerStr a) (toLowerStr b) : ℚ) /
        ((max (toLowerStr a).length (toLowerStr b).length : Nat) : ℚ)) ∧
    nameSimilarity "Acme Inc" "Acme Incorporated" = 8 / 17 ∧
    fuzzyNameAccepted "Acme Inc" "Acme Incorporated" = false := by
  have hsim : nameSimilarity "Acme Inc" "Acme Incorporated" = 8 / 17 := by
    have h9 : levenshtein (toLowerStr "Acme Inc") (toLowerStr "Acme Incorporated") = 9 := by
      decide
    have hmax : (max "Acme Inc".length "Acme Incorporated".length : Nat) = 17 := by decide
    unfold nameSimilarity
    rw [if_neg (by simp), h9, hmax]
    norm_num
  refine ⟨levenshtein_symm_general,
    fun a b => levenshtein_eq_zero_iff_general (toLowerStr a) (toLowerStr b), ?_, hsim, ?_⟩
  · intro a b ha hb
    have hla : (toLowerStr a).length = a.length := by
      show (a.data.map Char.toLower).length = a.data.length
      exact List.length_map _ _
    have hlb : (toLowerStr b).length = b.length := by
      show (b.data.map Char.toLower).length = b.data.length
      exact List.length_map _ _
    unfold nameSimilarity
    rw [if_neg (by tauto), hla, hlb]
  · unfold fuzzyNameAccepted
    rw [hsim]
    norm_num

/-- Witness for C5: the similarity formula and the zero-iff part applied at
concrete names. -/
theorem levenshtein_similarity_props_witness :
    nameSimilarity "Acme" "Acme Inc" =
      1 - (levenshtein (toLowerStr "Acme") (toLowerStr "Acme Inc") : ℚ) /
        ((max (toLowerStr "Acme").length (toLowerStr "Acme Inc").length : Nat) : ℚ) ∧
    (levenshtein (toLowerStr "Acme") (toLowerStr "ACME") = 0 ↔
      toLowerStr "Acme" = toLowerStr "ACME") :=
  ⟨levenshtein_similarity_props.2.2.1 "Acme" "Acme Inc" (by decide) (by decide),
   levenshtein_similarity_props.2.1 "Acme" "ACME"⟩

/-! ### dedupe-company.js: merge executor with retry, and the merge loop -/

/-- Response of the external merge endpoint to one call: success, an HTTP 429
(rate-limited) failure, or any other failure. -/
inductive MergeResp
  | ok
  | rateLimited
  | otherError
deriving DecidableEq

/-- Result of `retryWithBackoff`: overall success, or the exception it
rethrows. -/
inductive RetryResult
  | success
  | thrown (e : MergeResp)
deriving DecidableEq

/-- Observable behaviour of one `retryWithBackoff` invocation: its result,
the number of calls it made to `fn`, and the backoff delays it slept. -/
structure RetryOut where
  result : RetryResult
  attempts : Nat
  delays : List Nat
deriving DecidableEq

/-- dedupe-company.js lines 42–52, `retryWithBackoff(fn, retries = 3,
delay = 500)`: call `fn`; on a 429 failure with retries remaining, sleep
`delay` and recurse with `retries - 1` and `delay * 2`; any other failure, or
a 429 with no retries remaining, is rethrown. `fn` is modelled by the
response to its `k`-th call. -/
def retryWithBackoff (fn : Nat → MergeResp) : Nat → Nat → Nat → RetryOut
  | 0, _, k =>
    match fn k with
    | .ok => ⟨.success, 1, []⟩
    | .rateLimited => ⟨.thrown .rateLimited, 1, []⟩
    | .otherError => ⟨.thrown .otherError, 1, []⟩
  | r + 1, delay, k =>
    match fn k with
    | .ok => ⟨.success, 1, []⟩
    | .rateLimited =>
      let rest := retryWithBackoff fn r (delay * 2) (k + 1)
      ⟨rest.result, rest.attempts + 1, delay :: rest.delays⟩
    | .otherError => ⟨.thrown .otherError, 1, []⟩

/-- External collaborators of the company merge loop: the per-duplicate
`getById(id, ['hs_is_merged'])` lookup (its `body.properties.hs_is_merged`
value, or a thrown transport error) and the merge endpoint's response to each
attempt for each duplicate id. -/
structure CompanyEnv where
  fetchIsMerged : String → Except String (Option String)
  mergeFn : String → Nat → MergeResp

/-- Aggregated outcome of the merge loop (dedupe-company.js line 92), plus
the trace of merge calls issued: `(duplicate id, attempts made)`. -/
structure LoopOut where
  mergedCount : Nat
  mergedFromIds : List String
  failedMergeIds : List String
  skippedMergeIds : List String
  mergeCalls : List (String × Nat)

/-- dedupe-company.js line 91: the merge targets are every enriched match
except the survivor. -/
def duplicatesToCheck (enrichedMatches : List String) (survivorId : String) : List String :=
  enrichedMatches.filter (fun c => c ≠ survivorId)

/-- dedupe-company.js lines 94–125: for each duplicate, fetch `hs_is_merged`
(a fetch error sends the duplicate to `failedMergeIds` via the per-iteration
catch); a previously-merged duplicate is skipped unless the match type is
`domain`; otherwise the merge is attempted through `retryWithBackoff`, a
success recorded in `mergedFromIds` and a thrown error in `failedMergeIds`,
and the loop continues with the remaining duplicates either way. -/
def companyMergeLoop (env : CompanyEnv) (matchType : String) : List String → LoopOut
  | [] => ⟨0, [], [], [], []⟩
  | d :: rest =>
    let out := companyMergeLoop env matchType rest
    match env.fetchIsMerged d with
    | .error _ =>
      ⟨out.mergedCount, out.mergedFromIds, d :: out.failedMergeIds,
        out.skippedMergeIds, out.mergeCalls⟩
    | .ok v =>
      if (v.getD "false") = "true" ∧ matchType ≠ "domain" then
        ⟨out.mergedCount, out.mergedFromIds, out.failedMergeIds,
          d :: out.skippedMergeIds, out.mergeCalls⟩
      else
        let r := retryWithBackoff (env.mergeFn d) 3 500 0
        match r.result with
        | .success =>
          ⟨out.mergedCount + 1, d :: out.mergedFromIds, out.failedMergeIds,
            out.skippedMergeIds, (d, r.attempts) :: out.mergeCalls⟩
        | .thrown _ =>
          ⟨out.mergedCount, out.mergedFromIds, d :: out.failedMergeIds,
            out.skippedMergeIds, (d, r.attempts) :: out.mergeCalls⟩

theorem retry_attempts_le (fn : Nat → MergeResp) :
    ∀ (r d k : Nat), (retryWithBackoff fn r d k).attempts ≤ r + 1 := by
  intro r
  induction r with
  | zero =>
    intro d k
    rcases hk : fn k with _ | _ | _ <;> simp [retryWithBackoff, hk]
  | succ r ih =>
    intro d k
    rcases hk : fn k with _ | _ | _ <;> simp [retryWithBackoff, hk]
    have := ih (d * 2) (k + 1)
    omega

theorem retry_two_then_ok (fn : Nat → MergeResp) (d k : Nat)
    (h0 : fn k = .rateLimited) (h1 : fn (k + 1) = .rateLimited) (h2 : fn (k + 2) = .ok) :
    retryWithBackoff fn 3 d k = ⟨.success, 3, [d, d * 2]⟩ := by
  simp only [retryWithBackoff, h0, h1, show k + 1 + 1 = k + 2 from rfl, h2]

theorem retry_other_no_retry (fn : Nat → MergeResp) (r d k : Nat)
    (h : fn k = .otherError) :
    retryWithBackoff fn r d k = ⟨.thrown .otherError, 1, []⟩ := by
  cases r <;> simp [retryWithBackoff, h]

theorem loop_partitions (env : CompanyEnv) (mt : String) :
    ∀ l : List String,
      (companyMergeLoop env mt l).mergedFromIds.length +
        (companyMergeLoop env mt l).failedMergeIds.length +
        (companyMergeLoop env mt l).skippedMergeIds.length = l.length ∧
      ∀ x ∈ l, x ∈ (companyMergeLoop env mt l).mergedFromIds ∨
        x ∈ (companyMergeLoop env mt l).failedMergeIds ∨
        x ∈ (companyMergeLoop env mt l).skippedMergeIds := by
  intro l
  induction l with
  | nil => exact ⟨rfl, by simp⟩
  | cons d rest ih =>
    obtain ⟨ihlen, ihmem⟩ := ih
    rcases hf : env.fetchIsMerged d with e | v
    · simp only [companyMergeLoop, hf]
      refine ⟨by simp only [List.length_cons, List.length_cons]; omega, ?_⟩
      intro x hx
      rcases List.mem_cons.mp hx with rfl | hx
      · right; left; simp
      · rcases ihmem x hx with h | h | h
        · left; exact h
        · right; left; simp [h]
        · right; right; exact h
    · by_cases hcond : (v.getD "false") = "true" ∧ mt ≠ "domain"
      · simp only [companyMergeLoop, hf, if_pos hcond]
        refine ⟨by simp only [List.length_cons]; omega, ?_⟩
        intro x hx
        rcases List.mem_cons.mp hx with rfl | hx
        · right; right; simp
        · rcases ihmem x hx with h | h | h
          · left; exact h
          · right; left; exact h
          · right; right; simp [h]
      · simp only [companyMergeLoop, hf, if_neg hcond]
        rcases hr : (retryWithBackoff (env.mergeFn d) 3 500 0).result with _ | e
        · simp only [hr]
          refine ⟨by simp only [List.length_cons]; omega, ?_⟩
          intro x hx
          rcases List.mem_cons.mp hx with rfl | hx
          · left; simp
          · rcases ihmem x hx with h | h | h
            · left; simp [h]
            · right; left; exact h
            · right; right; exact h
        · simp only [hr]
          refine ⟨by simp only [List.length_cons]; omega, ?_⟩
          intro x hx
          rcases List.mem_cons.mp hx with rfl | hx
          · right; left; simp
          · rcases ihmem x hx with h | h | h
            · left; exact h
            · right; left; simp [h]
            · right; right; exact h

theorem loop_mem_subset (env : CompanyEnv) (mt : String) :
    ∀ l : List String,
      (∀ x ∈ (companyMergeLoop env mt l).mergedFromIds, x ∈ l) ∧
      (∀ x ∈ (companyMergeLoop env mt l).failedMergeIds, x ∈ l) ∧
      (∀ x ∈ (companyMergeLoop env mt l).skippedMergeIds, x ∈ l) ∧
      (∀ p ∈ (companyMergeLoop env mt l).mergeCalls, p.1 ∈ l) := by
  intro l
  induction l with
  | nil => refine ⟨?_, ?_, ?_, ?_⟩ <;> intro x hx <;> simp [companyMergeLoop] at hx
  | cons d rest ih =>
    obtain ⟨ih1, ih2, ih3, ih4⟩ := ih
    rcases hf : env.fetchIsMerged d with e | v
    · simp only [companyMergeLoop, hf]
      refine ⟨fun x hx => by simp [ih1 x hx], ?_, fun x hx => by simp [ih3 x hx],
        fun p hp => by simp [ih4 p hp]⟩
      intro x hx
      rcases List.mem_cons.mp hx with rfl | hx
      · simp
      · simp [ih2 x hx]
    · by_cases hcond : (v.getD "false") = "true" ∧ mt ≠ "domain"
      · simp only [companyMergeLoop, hf, if_pos hcond]
        refine ⟨fun x hx => by simp [ih1 x hx], fun x hx => by simp [ih2 x hx], ?_,
          fun p hp => by simp [ih4 p hp]⟩
        intro x hx
        rcases List.mem_cons.mp hx with rfl | hx
        · simp
        · simp [ih3 x hx]
      · simp only [companyMergeLoop, hf, if_neg hcond]
        rcases hr : (retryWithBackoff (env.mergeFn d) 3 500 0).result with _ | e
        · simp only [hr]
          refine ⟨?_, fun x hx => by simp [ih2 x hx], fun x hx => by simp [ih3 x hx], ?_⟩
          · intro x hx
            rcases List.mem_cons.mp hx with rfl | hx
            · simp
            · simp [ih1 x hx]
          · intro p hp
            rcases List.mem_cons.mp hp with rfl | hp
            · simp
            · simp [ih4 p hp]
        · simp only [hr]
          refine ⟨fun x hx => by simp [ih1 x hx], ?_, fun x hx => by simp [ih3 x hx], ?_⟩
          · intro x hx
            rcases List.mem_cons.mp hx with rfl | hx
            · simp
            · simp [ih2 x hx]
          · intro p hp
            rcases List.mem_cons.mp hp with rfl | hp
            · simp
            · simp [ih4 p hp]

theorem loop_skip_rule (env : CompanyEnv) (mt : String) :
    ∀ (l : List String) (d : String) (v : Option String),
      l.Nodup → d ∈ l → env.fetchIsMerged d = .ok v → v.getD "false" = "true" →
      ((mt ≠ "domain" →
          d ∈ (companyMergeLoop env mt l).skippedMergeIds ∧
          d ∉ (companyMergeLoop env mt l).mergedFromIds ∧
          d ∉ (companyMergeLoop env mt l).failedMergeIds ∧
          ∀ p ∈ (companyMergeLoop env mt l).mergeCalls, p.1 ≠ d) ∧
       (mt = "domain" →
          (∃ p ∈ (companyMergeLoop env mt l).mergeCalls, p.1 = d) ∧
          d ∉ (companyMergeLoop env mt l).skippedMergeIds)) := by
  intro l
  induction l with
  | nil => intro d v _ hd; exact absurd hd (by simp)
  | cons d' rest ih =>
    intro d v hnd hd hfetch hm
    obtain ⟨hnotin, hndrest⟩ := List.nodup_cons.mp hnd
    by_cases hdd : d = d'
    · subst hdd
      obtain ⟨hsub1, hsub2, hsub3, hsub4⟩ := loop_mem_subset env mt rest
      simp only [companyMergeLoop, hfetch]
      constructor
      · intro hmt
        rw [if_pos ⟨hm, hmt⟩]
        refine ⟨by simp, fun hx => hnotin (hsub1 d hx),
          fun hx => hnotin (hsub2 d hx), ?_⟩
        intro p hp hpd
        exact hnotin (hpd ▸ hsub4 p hp)
      · intro hmt
        rw [if_neg (by simp [hmt])]
        rcases hr : (retryWithBackoff (env.mergeFn d) 3 500 0).result with _ | e
        · simp only [hr]
          exact ⟨⟨(d, (retryWithBackoff (env.mergeFn d) 3 500 0).attempts), by simp, rfl⟩,
            fun hx => hnotin (hsub3 d hx)⟩
        · simp only [hr]
          exact ⟨⟨(d, (retryWithBackoff (env.mergeFn d) 3 500 0).attempts), by simp, rfl⟩,
            fun hx => hnotin (hsub3 d hx)⟩
    · have hdrest : d ∈ rest := by
        rcases List.mem_cons.mp hd with h | h
        · exact absurd h hdd
        · exact h
      have ihall := ih d v hndrest hdrest hfetch hm
      rcases hf : env.fetchIsMerged d' with e | v'
      · simp only [companyMergeLoop, hf]
        constructor
        · intro hmt
          obtain ⟨hs, hm1, hm2, hc⟩ := ihall.1 hmt
          refine ⟨hs, hm1, ?_, hc⟩
          intro hx
          rcases List.mem_cons.mp hx with h | h
          · exact hdd h
          · exact hm2 h
        · intro hmt
          obtain ⟨⟨p, hp, hpd⟩, hns⟩ := ihall.2 hmt
          exact ⟨⟨p, hp, hpd⟩, hns⟩
      · by_cases hcond : (v'.getD "false") = "true" ∧ mt ≠ "domain"
        · simp only [companyMergeLoop, hf, if_pos hcond]
          constructor
          · intro hmt
            obtain ⟨hs, hm1, hm2, hc⟩ := ihall.1 hmt
            exact ⟨by simp [hs], hm1, hm2, hc⟩
          · intro hmt
            obtain ⟨⟨p, hp, hpd⟩, hns⟩ := ihall.2 hmt
            refine ⟨⟨p, hp, hpd⟩, ?_⟩
            intro hx
            rcases List.mem_cons.mp hx with h | h
            · exact hdd h
            · exact hns h
        · simp only [companyMergeLoop, hf, if_neg hcond]
          rcases hr : (retryWithBackoff (env.mergeFn d') 3 500 0).result with _ | e
          · simp only [hr]
            constructor
            · intro hmt
              obtain ⟨hs, hm1, hm2, hc⟩ := ihall.1 hmt
              refine ⟨hs, ?_, hm2, ?_⟩
              · intro hx
                rcases List.mem_cons.mp hx with h | h
                · exact hdd h
                · exact hm1 h
              · intro p hp
                rcases List.mem_cons.mp hp with rfl | hp
                · exact fun hx => hdd hx.symm
                · exact hc p hp
            · intro hmt
              obtain ⟨⟨p, hp, hpd⟩, hns⟩ := ihall.2 hmt
              exact ⟨⟨p, by simp [hp], hpd⟩, hns⟩
          · simp only [hr]
            constructor
            · intro hmt
              obtain ⟨hs, hm1, hm2, hc⟩ := ihall.1 hmt
              refine ⟨hs, hm1, ?_, ?_⟩
              · intro hx
                rcases List.mem_cons.mp hx with h | h
                · exact hdd h
                · exact hm2 h
              · intro p hp
                rcases List.mem_cons.mp hp with rfl | hp
                · exact fun hx => hdd hx.symm
                · exact hc p hp
            · intro hmt
              obtain ⟨⟨p, hp, hpd⟩, hns⟩ := ihall.2 hmt
              exact ⟨⟨p, by simp [hp], hpd⟩, hns⟩

/-- Per-target outcome recording of the merge loop (dedupe-company.js lines
94–125): a duplicate whose `hs_is_merged` fetch throws is recorded in
`failedMergeIds`; a duplicate that is merge-called is recorded in
`mergedFromIds` when its `retryWithBackoff` succeeds and in `failedMergeIds`
when it rethrows, in each case in that one bucket only. -/
theorem loop_outcome_buckets (env : CompanyEnv) (mt : String) :
    ∀ (l : List String) (d : String),
      l.Nodup → d ∈ l →
      ((∀ e, env.fetchIsMerged d = .error e →
          d ∈ (companyMergeLoop env mt l).failedMergeIds ∧
          d ∉ (companyMergeLoop env mt l).mergedFromIds ∧
          d ∉ (companyMergeLoop env mt l).skippedMergeIds) ∧
       (∀ v, env.fetchIsMerged d = .ok v →
          ¬((v.getD "false") = "true" ∧ mt ≠ "domain") →
          ((retryWithBackoff (env.mergeFn d) 3 500 0).result = .success →
            d ∈ (companyMergeLoop env mt l).mergedFromIds ∧
            d ∉ (companyMergeLoop env mt l).failedMergeIds ∧
            d ∉ (companyMergeLoop env mt l).skippedMergeIds) ∧
          (∀ e, (retryWithBackoff (env.mergeFn d) 3 500 0).result = .thrown e →
            d ∈ (companyMergeLoop env mt l).failedMergeIds ∧
            d ∉ (companyMergeLoop env mt l).mergedFromIds ∧
            d ∉ (companyMergeLoop env mt l).skippedMergeIds))) := by
  intro l
  induction l with
  | nil => intro d _ hd; exact absurd hd (by simp)
  | cons d' rest ih =>
    intro d hnd hd
    obtain ⟨hnotin, hndrest⟩ := List.nodup_cons.mp hnd
    by_cases hdd : d = d'
    · subst hdd
      obtain ⟨hsub1, hsub2, hsub3, hsub4⟩ := loop_mem_subset env mt rest
      constructor
      · intro e hfe
        simp only [companyMergeLoop, hfe]
        exact ⟨by simp, fun hx => hnotin (hsub1 d hx), fun hx => hnotin (hsub3 d hx)⟩
      · intro v hfv hcond
        simp only [companyMergeLoop, hfv, if_neg hcond]
        constructor
        · intro hres
          simp only [hres]
          exact ⟨by simp, fun hx => hnotin (hsub2 d hx), fun hx => hnotin (hsub3 d hx)⟩
        · intro e hres
          simp only [hres]
          exact ⟨by simp, fun hx => hnotin (hsub1 d hx), fun hx => hnotin (hsub3 d hx)⟩
    · have hdrest : d ∈ rest := by
        rcases List.mem_cons.mp hd with h | h
        · exact absurd h hdd
        · exact h
      have ihall := ih d hndrest hdrest
      rcases hf : env.fetchIsMerged d' with e' | v'
      · simp only [companyMergeLoop, hf]
        constructor
        · intro e hfe
          obtain ⟨h1, h2, h3⟩ := ihall.1 e hfe
          refine ⟨by simp [h1], h2, h3⟩
        · intro v hfv hcond
          obtain ⟨hsucc, hthr⟩ := ihall.2 v hfv hcond
          constructor
          · intro hres
            obtain ⟨h1, h2, h3⟩ := hsucc hres
            refine ⟨h1, ?_, h3⟩
            intro hx
            rcases List.mem_cons.mp hx with h | h
            · exact hdd h
            · exact h2 h
          · intro e hres
            obtain ⟨h1, h2, h3⟩ := hthr e hres
            refine ⟨by simp [h1], h2, h3⟩
      · by_cases hcond' : (v'.getD "false") = "true" ∧ mt ≠ "domain"
        · simp only [companyMergeLoop, hf, if_pos hcond']
          constructor
          · intro e hfe
            obtain ⟨h1, h2, h3⟩ := ihall.1 e hfe
            refine ⟨h1, h2, ?_⟩
            intro hx
            rcases List.mem_cons.mp hx with h | h
            · exact hdd h
            · exact h3 h
          · intro v hfv hcond
            obtain ⟨hsucc, hthr⟩ := ihall.2 v hfv hcond
            constructor
            · intro hres
              obtain ⟨h1, h2, h3⟩ := hsucc hres
              refine ⟨h1, h2, ?_⟩
              intro hx
              rcases List.mem_cons.mp hx with h | h
              · exact hdd h
              · exact h3 h
            · intro e hres
              obtain ⟨h1, h2, h3⟩ := hthr e hres
              refine ⟨h1, h2, ?_⟩
              intro hx
              rcases List.mem_cons.mp hx with h | h
              · exact hdd h
              · exact h3 h
        · simp only [companyMergeLoop, hf, if_neg hcond']
          rcases hr : (retryWithBackoff (env.mergeFn d') 3 500 0).result with _ | e'
          · simp only [hr]
            constructor
            · intro e hfe
              obtain ⟨h1, h2, h3⟩ := ihall.1 e hfe
              refine ⟨h1, ?_, h3⟩
              intro hx
              rcases List.mem_cons.mp hx with h | h
              · exact hdd h
              · exact h2 h
            · intro v hfv hcond
              obtain ⟨hsucc, hthr⟩ := ihall.2 v hfv hcond
              constructor
              · intro hres
                obtain ⟨h1, h2, h3⟩ := hsucc hres
                refine ⟨by simp [h1], h2, h3⟩
              · intro e hres
                obtain ⟨h1, h2, h3⟩ := hthr e hres
                refine ⟨h1, ?_, h3⟩
                intro hx
                rcases List.mem_cons.mp hx with h | h
                · exact hdd h
                · exact h2 h
          · simp only [hr]
            constructor
            · intro e hfe
              obtain ⟨h1, h2, h3⟩ := ihall.1 e hfe
              refine ⟨by simp [h1], h2, h3⟩
            · intro v hfv hcond
              obtain ⟨hsucc, hthr⟩ := ihall.2 v hfv hcond
              constructor
              · intro hres
                obtain ⟨h1, h2, h3⟩ := hsucc hres
                refine ⟨h1, ?_, h3⟩
                intro hx
                rcases List.mem_cons.mp hx with h | h
                · exact hdd h
                · exact h2 h
              · intro e hres
                obtain ⟨h1, h2, h3⟩ := hthr e hres
                refine ⟨by simp [h1], h2, h3⟩


/-- A merge endpoint that is rate-limited on its first three calls and
succeeds afterwards. -/
def fnRL3 : Nat → MergeResp := fun k => if k < 3 then .rateLimited else .ok

/-- A merge endpoint that is rate-limited on its first two calls and succeeds
afterwards. -/
def fnRL2 : Nat → MergeResp := fun k => if k < 2 then .rateLimited else .ok

/-- Counterexample for C2 as stated: with the source's `retries = 3`, a merge
that is rate-limited three times and then succeeds makes 4 attempts and still
ends in success, so the attempt ceiling is 4 (1 initial call + 3 retries),
not 3. -/
theorem merge_retry_ceiling_counterexample :
    (retryWithBackoff fnRL3 3 500 0).result = .success ∧
    (retryWithBackoff fnRL3 3 500 0).attempts = 4 ∧
    ¬(retryWithBackoff fnRL3 3 500 0).attempts ≤ 3 := by
  refine ⟨by decide, by decide, by decide⟩

/-- Claim C2 (amended): a rate-limited merge is retried with delays doubling
from the base, up to 3 retries — hence at most 4 attempts; rate-limited twice
then success gives exactly 3 attempts with strictly increasing delays
`[d, 2d]` and a successful (merged) result; any non-rate-limit error is
rethrown after a single attempt; the loop places every target in exactly one
of the merged/failed/skipped buckets; and per target, a merge whose retry
succeeds is recorded in `mergedFromIds` while one whose retry rethrows (in
particular a non-rate-limit error, rethrown after one attempt) is recorded in
`failedMergeIds` — for that target only, the remaining targets still landing
in their own buckets. -/
theorem merge_retry_policy :
    (∀ (fn : Nat → MergeResp) (r d k : Nat),
      (retryWithBackoff fn r d k).attempts ≤ r + 1) ∧
    (∀ (fn : Nat → MergeResp) (d k : Nat),
      fn k = .rateLimited → fn (k + 1) = .rateLimited → fn (k + 2) = .ok →
      retryWithBackoff fn 3 d k = ⟨.success, 3, [d, d * 2]⟩ ∧ (0 < d → d < d * 2)) ∧
    (∀ (fn : Nat → MergeResp) (r d k : Nat), fn k = .otherError →
      retryWithBackoff fn r d k = ⟨.thrown .otherError, 1, []⟩) ∧
    (∀ (env : CompanyEnv) (mt : String) (l : List String),
      (companyMergeLoop env mt l).mergedFromIds.length +
        (companyMergeLoop env mt l).failedMergeIds.length +
        (companyMergeLoop env mt l).skippedMergeIds.length = l.length ∧
      ∀ x ∈ l, x ∈ (companyMergeLoop env mt l).mergedFromIds ∨
        x ∈ (companyMergeLoop env mt l).failedMergeIds ∨
        x ∈ (companyMergeLoop env mt l).skippedMergeIds) ∧
    (∀ (env : CompanyEnv) (mt : String) (l : List String) (d : String),
      l.Nodup → d ∈ l →
      ((∀ e, env.fetchIsMerged d = .error e →
          d ∈ (companyMergeLoop env mt l).failedMergeIds ∧
          d ∉ (companyMergeLoop env mt l).mergedFromIds ∧
          d ∉ (companyMergeLoop env mt l).skippedMergeIds) ∧
       (∀ v, env.fetchIsMerged d = .ok v →
          ¬((v.getD "false") = "true" ∧ mt ≠ "domain") →
          ((retryWithBackoff (env.mergeFn d) 3 500 0).result = .success →
            d ∈ (companyMergeLoop env mt l).mergedFromIds ∧
            d ∉ (companyMergeLoop env mt l).failedMergeIds ∧
            d ∉ (companyMergeLoop env mt l).skippedMergeIds) ∧
          (∀ e, (retryWithBackoff (env.mergeFn d) 3 500 0).result = .thrown e →
            d ∈ (companyMergeLoop env mt l).failedMergeIds ∧
            d ∉ (companyMergeLoop env mt l).mergedFromIds ∧
            d ∉ (companyMergeLoop env mt l).skippedMergeIds)))) :=
  ⟨retry_attempts_le,
   fun fn d k h0 h1 h2 =>
     ⟨retry_two_then_ok fn d k h0 h1 h2, fun hd => by omega⟩,
   retry_other_no_retry,
   loop_partitions,
   fun env mt l d hnd hd => loop_outcome_buckets env mt l d hnd hd⟩

/-- An environment whose merge endpoint always throws a non-rate-limit error
for target "3" and succeeds for every other target. -/
def envC2 : CompanyEnv :=
  ⟨fun _ => .ok none, fun d _ => if d = "3" then .otherError else .ok⟩

/-- Witness for C2: the rate-limited-twice-then-success scenario at base
delay 500 makes exactly 3 attempts with delays 500 then 1000 and succeeds;
and in a concrete loop the target whose merge throws a non-429 error is
recorded as failed while the other target is recorded as merged. -/
theorem merge_retry_policy_witness :
    retryWithBackoff fnRL2 3 500 0 = ⟨.success, 3, [500, 1000]⟩ ∧
    (retryWithBackoff fnRL3 3 500 0).attempts ≤ 4 ∧
    "3" ∈ (companyMergeLoop envC2 "name_token" ["2", "3"]).failedMergeIds ∧
    "2" ∈ (companyMergeLoop envC2 "name_token" ["2", "3"]).mergedFromIds :=
  ⟨(merge_retry_policy.2.1 fnRL2 500 0 (by decide) (by decide) (by decide)).1,
   merge_retry_policy.1 fnRL3 3 500 0,
   (((merge_retry_policy.2.2.2.2 envC2 "name_token" ["2", "3"] "3" (by decide)
       (by decide)).2 none rfl (by decide)).2 .otherError (by decide)).1,
   (((merge_retry_policy.2.2.2.2 envC2 "name_token" ["2", "3"] "2" (by decide)
       (by decide)).2 none rfl (by decide)).1 (by decide)).1⟩

/-- Environment for the C6 witness: every duplicate is already marked merged
and every merge attempt succeeds. -/
def envC6 : CompanyEnv := ⟨fun _ => .ok (some "true"), fun _ _ => .ok⟩

/-- Claim C6: a merge target already marked `hs_is_merged` is pushed to the
skipped list (no merge call for it, nor any merged/failed record) when the
accepted strategy is not the domain tier, and is merge-called anyway (not
skipped) when the accepted strategy is `domain`. -/
theorem prev_merged_skip_rule (env : CompanyEnv) (mt : String)
    (enrichedMatches : List String) (survivorId : String) (d : String) (v : Option String)
    (hnd : (duplicatesToCheck enrichedMatches survivorId).Nodup)
    (hd : d ∈ duplicatesToCheck enrichedMatches survivorId)
    (hfetch : env.fetchIsMerged d = .ok v)
    (hm : v.getD "false" = "true") :
    (mt ≠ "domain" →
      d ∈ (companyMergeLoop env mt (duplicatesToCheck enrichedMatches survivorId)).skippedMergeIds ∧
      d ∉ (companyMergeLoop env mt (duplicatesToCheck enrichedMatches survivorId)).mergedFromIds ∧
      d ∉ (companyMergeLoop env mt (duplicatesToCheck enrichedMatches survivorId)).failedMergeIds ∧
      ∀ p ∈ (companyMergeLoop env mt (duplicatesToCheck enrichedMatches survivorId)).mergeCalls,
        p.1 ≠ d) ∧
    (mt = "domain" →
      (∃ p ∈ (companyMergeLoop env mt (duplicatesToCheck enrichedMatches survivorId)).mergeCalls,
        p.1 = d) ∧
      d ∉ (companyMergeLoop env mt (duplicatesToCheck enrichedMatches survivorId)).skippedMergeIds) :=
  loop_skip_rule env mt (duplicatesToCheck enrichedMatches survivorId) d v hnd hd hfetch hm

/-- Witness for C6: with all duplicates previously merged, target "2" is
skipped under a non-domain strategy and merge-called under the domain
strategy. -/
theorem prev_merged_skip_rule_witness :
    "2" ∈ (companyMergeLoop envC6 "name_token" (duplicatesToCheck ["1", "2", "3"] "1")).skippedMergeIds ∧
    (∃ p ∈ (companyMergeLoop envC6 "domain" (duplicatesToCheck ["1", "2", "3"] "1")).mergeCalls,
      p.1 = "2") :=
  ⟨((prev_merged_skip_rule envC6 "name_token" ["1", "2", "3"] "1" "2" (some "true")
      (by decide) (by decide) rfl (by decide)).1 (by decide)).1,
   ((prev_merged_skip_rule envC6 "domain" ["1", "2", "3"] "1" "2" (some "true")
      (by decide) (by decide) rfl (by decide)).2 rfl).1⟩

/-! ### dedupe-contact.js: contact model, match strategy cascade, survivor
selection, and run result -/

/-- The contact properties dedupe-contact.js reads (lines 46–50, 84). The
`hs_analytics_last_timestamp` field holds the parsed
`new Date(value).getTime()` milliseconds of the stored datetime string, or
`none` when the property is absent (line 241 treats that as the epoch). -/
structure ContactProps where
  firstname : Option String
  lastname : Option String
  email : Option String
  phone : Option String
  company : Option String
  hs_analytics_last_timestamp : Option Int
deriving DecidableEq

/-- A stored contact record: its id and properties. -/
structure Candidate where
  id : String
  props : ContactProps
deriving DecidableEq

/-- One strategy of the cascade (dedupe-contact.js lines 93–209): its
`matchStep` name, its gating precondition on the normalized subject, the raw
search result the store returns for its query (an `Except` because a search
may fail the whole run), and the local filter applied to the results. -/
structure Step where
  name : String
  gate : Bool
  raw : Except String (List Candidate)
  keep : Candidate → Bool

instance : Inhabited Step := ⟨⟨"", false, .ok [], fun _ => false⟩⟩

/-- The candidate-after-filter set a step would produce from its search
results. -/
def stepMatches (st : Step) : List Candidate :=
  match st.raw with
  | .ok rs => rs.filter st.keep
  | .error _ => []

/-- The cascade's mutable state (dedupe-contact.js lines 90–91): the JS
`matches` array (renamed, `matches` is a Lean keyword), the `matchStep` name,
the strategies that issued a search so far, and a pending thrown search
error. -/
structure PState where
  -- the JS `matches` array (renamed: `matches` is a Lean keyword)
  matchList : List Candidate
  matchStep : Option String
  searched : List Nat
  err : Option String

/-- dedupe-contact.js lines 93–209: the strategy cascade. Each step runs
exactly when the `matches` array is still empty and its precondition holds;
it then issues its search (recording the step number), a thrown search error
aborts the cascade, and otherwise `matches` becomes the filtered results and
`matchStep` is set when they are non-empty. -/
def runStepsFrom : Nat → List Step → PState → PState
  | _, [], s => s
  | i, st :: rest, s =>
    match s.err with
    | some _ => s
    | none =>
      if s.matchList.isEmpty && st.gate then
        match st.raw with
        | .error e => ⟨s.matchList, s.matchStep, s.searched ++ [i], some e⟩
        | .ok rs =>
          let m := rs.filter st.keep
          runStepsFrom (i + 1) rest
            ⟨m, if m.isEmpty then s.matchStep else some st.name, s.searched ++ [i], none⟩
      else runStepsFrom (i + 1) rest s

/-- Closed-form of `runStepsFrom` used for the proofs: walk the gated steps
in order up to and including the first whose filtered result is non-empty (or
whose search throws). -/
def specRun (i : Nat) : List Step → PState
  | [] => ⟨[], none, [], none⟩
  | st :: rest =>
    if st.gate then
      match st.raw with
      | .error e => ⟨[], none, [i], some e⟩
      | .ok rs =>
        let m := rs.filter st.keep
        if m.isEmpty then
          let r := specRun (i + 1) rest
          ⟨r.matchList, r.matchStep, i :: r.searched, r.err⟩
        else ⟨m, some st.name, [i], none⟩
    else specRun (i + 1) rest

theorem runStepsFrom_const : ∀ (l : List Step) (i : Nat) (s : PState),
    s.matchList ≠ [] ∨ s.err.isSome → runStepsFrom i l s = s := by
  intro l
  induction l with
  | nil => intro i s _; rfl
  | cons st rest ih =>
    intro i s hs
    rcases he : s.err with _ | e
    · have hm : s.matchList ≠ [] := by
        rcases hs with h | h
        · exact h
        · rw [he] at h; simp at h
      rw [runStepsFrom, he]
      dsimp only
      rw [if_neg (by simp [List.isEmpty_iff, hm])]
      exact ih (i + 1) s (Or.inl hm)
    · rw [runStepsFrom, he]

theorem runStepsFrom_spec : ∀ (l : List Step) (i : Nat) (sr : List Nat) (ms : Option String),
    runStepsFrom i l ⟨[], ms, sr, none⟩ =
      ⟨(specRun i l).matchList,
        (if (specRun i l).matchStep = none then ms else (specRun i l).matchStep),
        sr ++ (specRun i l).searched, (specRun i l).err⟩ := by
  intro l
  induction l with
  | nil => intro i sr ms; simp [runStepsFrom, specRun]
  | cons st rest ih =>
    intro i sr ms
    rw [runStepsFrom, specRun]
    dsimp only
    by_cases hg : st.gate
    · rw [if_pos (by simp [hg]), if_pos hg]
      rcases hr : st.raw with e | rs
      · rfl
      · dsimp only
        by_cases hm : (rs.filter st.keep).isEmpty
        · rw [if_pos hm, if_pos hm]
          have hml : rs.filter st.keep = [] := List.isEmpty_iff.mp hm
          rw [hml]
          rw [ih (i + 1) (sr ++ [i]) ms]
          simp
        · rw [if_neg hm, if_neg hm]
          have hml : rs.filter st.keep ≠ [] := by
            intro hx; exact hm (by simp [hx])
          rw [runStepsFrom_const rest (i + 1) _ (Or.inl hml)]
          simp
    · rw [if_neg (by simp [hg]), if_neg hg]
      exact ih (i + 1) sr ms

theorem specRun_bounds : ∀ (l : List Step) (i : Nat),
    ∀ k ∈ (specRun i l).searched, i ≤ k ∧ k < i + l.length := by
  intro l
  induction l with
  | nil => intro i k hk; simp [specRun] at hk
  | cons st rest ih =>
    intro i k hk
    rw [specRun] at hk
    by_cases hg : st.gate
    · rw [if_pos hg] at hk
      rcases hr : st.raw with e | rs
      · rw [hr] at hk
        simp at hk
        subst hk
        simp
      · rw [hr] at hk
        dsimp only at hk
        by_cases hm : (rs.filter st.keep).isEmpty
        · rw [if_pos hm] at hk
          rcases List.mem_cons.mp hk with rfl | hk
          · simp
          · have := ih (i + 1) k hk
            constructor <;> [omega; (simp only [List.length_cons]; omega)]
        · rw [if_neg hm] at hk
          simp at hk
          subst hk
          simp
    · rw [if_neg hg] at hk
      have := ih (i + 1) k hk
      constructor <;> [omega; (simp only [List.length_cons]; omega)]

theorem specRun_sorted : ∀ (l : List Step) (i : Nat),
    (specRun i l).searched.Pairwise (· < ·) := by
  intro l
  induction l with
  | nil => intro i; simp [specRun]
  | cons st rest ih =>
    intro i
    rw [specRun]
    by_cases hg : st.gate
    · rw [if_pos hg]
      rcases st.raw with e | rs
      · simp
      · dsimp only
        by_cases hm : (rs.filter st.keep).isEmpty
        · rw [if_pos hm]
          refine List.Pairwise.cons ?_ (ih (i + 1))
          intro k hk
          have := specRun_bounds rest (i + 1) k hk
          omega
        · rw [if_neg hm]
          simp
    · rw [if_neg hg]
      exact ih (i + 1)

theorem specRun_gate : ∀ (l : List Step) (i : Nat),
    ∀ k ∈ (specRun i l).searched, (l.getD (k - i) default).gate = true := by
  intro l
  induction l with
  | nil => intro i k hk; simp [specRun] at hk
  | cons st rest ih =>
    intro i k hk
    rw [specRun] at hk
    by_cases hg : st.gate
    · rw [if_pos hg] at hk
      rcases hr : st.raw with e | rs
      · rw [hr] at hk
        simp at hk
        subst hk
        simpa using hg
      · rw [hr] at hk
        dsimp only at hk
        by_cases hm : (rs.filter st.keep).isEmpty
        · rw [if_pos hm] at hk
          rcases List.mem_cons.mp hk with rfl | hk
          · simpa using hg
          · have hb := specRun_bounds rest (i + 1) k hk
            have hki : k - i = (k - (i + 1)) + 1 := by omega
            rw [hki, List.getD_cons_succ]
            exact ih (i + 1) k hk
        · rw [if_neg hm] at hk
          simp at hk
          subst hk
          simpa using hg
    · rw [if_neg hg] at hk
      have hb := specRun_bounds rest (i + 1) k hk
      have hki : k - i = (k - (i + 1)) + 1 := by omega
      rw [hki, List.getD_cons_succ]
      exact ih (i + 1) k hk



theorem specRun_outcome : ∀ (l : List Step) (i : Nat), (specRun i l).err = none →
    ((specRun i l).matchList = [] ∧ (specRun i l).matchStep = none ∧
      ∀ k ∈ (specRun i l).searched, stepMatches (l.getD (k - i) default) = []) ∨
    (∃ k ∈ (specRun i l).searched,
      stepMatches (l.getD (k - i) default) = (specRun i l).matchList ∧
      (specRun i l).matchList ≠ [] ∧
      (specRun i l).matchStep = some (l.getD (k - i) default).name ∧
      ∀ j ∈ (specRun i l).searched, j ≤ k ∧
        (j ≠ k → stepMatches (l.getD (j - i) default) = [])) := by
  intro l
  induction l with
  | nil => intro i _; left; exact ⟨rfl, rfl, by simp [specRun]⟩
  | cons st rest ih =>
    intro i herr
    rw [specRun] at herr ⊢
    by_cases hg : st.gate
    · rw [if_pos hg] at herr ⊢
      rcases hr : st.raw with e | rs
      · rw [hr] at herr
        dsimp only at herr
        simp at herr
      · rw [hr] at herr
        dsimp only at herr ⊢
        have hsm : stepMatches st = rs.filter st.keep := by simp [stepMatches, hr]
        by_cases hm : (rs.filter st.keep).isEmpty
        · rw [if_pos hm] at herr ⊢
          have hml : rs.filter st.keep = [] := List.isEmpty_iff.mp hm
          rcases ih (i + 1) herr with ⟨h1, h2, h3⟩ | ⟨k, hk, hsk, hnm, hstep, hall⟩
          · left
            refine ⟨h1, h2, ?_⟩
            intro k hk
            rcases List.mem_cons.mp hk with rfl | hk
            · simpa [hsm] using hml
            · have hb := specRun_bounds rest (i + 1) k hk
              have hki : k - i = (k - (i + 1)) + 1 := by omega
              rw [hki, List.getD_cons_succ]
              exact h3 k hk
          · right
            have hb := specRun_bounds rest (i + 1) k hk
            refine ⟨k, by simp [hk], ?_, hnm, ?_, ?_⟩
            · have hki : k - i = (k - (i + 1)) + 1 := by omega
              rw [hki, List.getD_cons_succ]
              exact hsk
            · have hki : k - i = (k - (i + 1)) + 1 := by omega
              rw [hki, List.getD_cons_succ]
              exact hstep
            · intro j hj
              rcases List.mem_cons.mp hj with heq | hj
              · refine ⟨by omega, ?_⟩
                intro _
                have hji0 : j - i = 0 := by omega
                rw [hji0, List.getD_cons_zero]
                simpa [hsm] using hml
              · have hbj := specRun_bounds rest (i + 1) j hj
                have hji : j - i = (j - (i + 1)) + 1 := by omega
                rw [hji, List.getD_cons_succ]
                exact hall j hj
        · rw [if_neg hm] at herr ⊢
          dsimp only at herr ⊢
          right
          refine ⟨i, by simp, ?_, ?_, by simp, ?_⟩
          · simp [hsm]
          · intro hx
            exact hm (by simp [hx])
          · intro j hj
            simp at hj
            subst hj
            exact ⟨le_refl _, fun h => absurd rfl h⟩
    · rw [if_neg hg] at herr ⊢
      rcases ih (i + 1) herr with ⟨h1, h2, h3⟩ | ⟨k, hk, hsk, hnm, hstep, hall⟩
      · left
        refine ⟨h1, h2, ?_⟩
        intro k hk
        have hb := specRun_bounds rest (i + 1) k hk
        have hki : k - i = (k - (i + 1)) + 1 := by omega
        rw [hki, List.getD_cons_succ]
        exact h3 k hk
      · right
        have hb := specRun_bounds rest (i + 1) k hk
        refine ⟨k, hk, ?_, hnm, ?_, ?_⟩
        · have hki : k - i = (k - (i + 1)) + 1 := by omega
          rw [hki, List.getD_cons_succ]
          exact hsk
        · have hki : k - i = (k - (i + 1)) + 1 := by omega
          rw [hki, List.getD_cons_succ]
          exact hstep
        · intro j hj
          have hbj := specRun_bounds rest (i + 1) j hj
          have hji : j - i = (j - (i + 1)) + 1 := by omega
          rw [hji, List.getD_cons_succ]
          exact hall j hj

theorem specRun_first_gated : ∀ (l : List Step) (i : Nat),
    (∃ m, m < l.length ∧ (l.getD m default).gate = true) →
    (specRun i l).searched ≠ [] := by
  intro l
  induction l with
  | nil => intro i ⟨m, hm, _⟩; simp at hm
  | cons st rest ih =>
    intro i ⟨m, hm, hgm⟩
    rw [specRun]
    by_cases hg : st.gate
    · rw [if_pos hg]
      rcases st.raw with e | rs
      · simp
      · dsimp only
        by_cases hme : (rs.filter st.keep).isEmpty
        · rw [if_pos hme]; simp
        · rw [if_neg hme]; simp
    · rw [if_neg hg]
      apply ih (i + 1)
      have hm0 : m ≠ 0 := by
        intro h
        subst h
        rw [List.getD_cons_zero] at hgm
        exact absurd hgm (by simp [hg])
      refine ⟨m - 1, by simp at hm; omega, ?_⟩
      have : m = (m - 1) + 1 := by omega
      rw [this, List.getD_cons_succ] at hgm
      exact hgm

theorem specRun_proceeds : ∀ (l : List Step) (i : Nat), (specRun i l).err = none →
    ∀ k ∈ (specRun i l).searched, stepMatches (l.getD (k - i) default) = [] →
    ∀ m, k < m → m < i + l.length → (l.getD (m - i) default).gate = true →
    ∃ j ∈ (specRun i l).searched, k < j := by
  intro l
  induction l with
  | nil => intro i _ k hk; simp [specRun] at hk
  | cons st rest ih =>
    intro i herr k hk hkm m hkm2 hmlen hgm
    rw [specRun] at herr hk ⊢
    by_cases hg : st.gate
    · rw [if_pos hg] at herr hk ⊢
      rcases hr : st.raw with e | rs
      · rw [hr] at herr
        dsimp only at herr
        simp at herr
      · rw [hr] at herr hk
        dsimp only at herr hk ⊢
        have hsm : stepMatches st = rs.filter st.keep := by simp [stepMatches, hr]
        by_cases hme : (rs.filter st.keep).isEmpty
        · rw [if_pos hme] at herr hk ⊢
          dsimp only at herr hk ⊢
          rcases List.mem_cons.mp hk with heq | hk
          · have hnonempty : (specRun (i + 1) rest).searched ≠ [] := by
              apply specRun_first_gated
              refine ⟨m - (i + 1), by simp only [List.length_cons] at hmlen; omega, ?_⟩
              have hmk : m - i = (m - (i + 1)) + 1 := by omega
              rw [hmk, List.getD_cons_succ] at hgm
              exact hgm
            rcases hx : (specRun (i + 1) rest).searched with _ | ⟨j, js⟩
            · exact absurd hx hnonempty
            · have hj : j ∈ (specRun (i + 1) rest).searched := by rw [hx]; simp
              have hbj := specRun_bounds rest (i + 1) j hj
              exact ⟨j, by simp [hj], by omega⟩
          · have hb := specRun_bounds rest (i + 1) k hk
            have hki : k - i = (k - (i + 1)) + 1 := by omega
            rw [hki, List.getD_cons_succ] at hkm
            have hmi : m - i = (m - (i + 1)) + 1 := by omega
            rw [hmi, List.getD_cons_succ] at hgm
            obtain ⟨j, hj, hjk⟩ := ih (i + 1) herr k hk hkm m hkm2
              (by simp only [List.length_cons] at hmlen; omega) hgm
            exact ⟨j, by simp [hj], hjk⟩
        · rw [if_neg hme] at herr hk ⊢
          dsimp only at herr hk ⊢
          simp at hk
          subst hk
          rw [show k - k = 0 from by omega, List.getD_cons_zero] at hkm
          rw [hsm] at hkm
          exact absurd hkm (by intro hx; exact hme (by simp [hx]))
    · rw [if_neg hg] at herr hk ⊢
      have hb := specRun_bounds rest (i + 1) k hk
      have hki : k - i = (k - (i + 1)) + 1 := by omega
      rw [hki, List.getD_cons_succ] at hkm
      have hmi : m - i = (m - (i + 1)) + 1 := by omega
      rw [hmi, List.getD_cons_succ] at hgm
      exact ih (i + 1) herr k hk hkm m hkm2 (by simp at hmlen; omega) hgm










/-- The normalized subject fields (dedupe-contact.js lines 54–64). -/
structure NormalizedSubject where
  normalizedPhone : Option String
  firstName : String
  lastName : String
  email : String
  emailUsername : String
  domainRoot : String
  normalizedInputUsername : String
  companyText : Option String
deriving DecidableEq

/-- dedupe-contact.js lines 54–64: trim names; lower-case the trimmed email
and split it into username / domain root; strip phone to digits (`null` when
the raw phone is absent or empty); dot-insensitive lower-cased username;
trimmed lower-cased company text (`null` when absent or empty). -/
def normalizeSubject (props : ContactProps) : NormalizedSubject :=
  let normalizedPhone := match props.phone with
    | some p => if p = "" then none else some (digitsOnly p)
    | none => none
  let firstName := (props.firstname.map jsTrim).getD ""
  let lastName := (props.lastname.map jsTrim).getD ""
  let email := (props.email.map (fun e => toLowerStr (jsTrim e))).getD ""
  let emailUsername := (jsSplit '@' email).headD ""
  let domainRoot := toLowerStr ((jsSplit '.' ((jsSplit '@' email).getD 1 "")).headD "")
  let normalizedInputUsername := normalizeUsername emailUsername
  let companyText := match props.company with
    | some c =>
      let t := toLowerStr (jsTrim c)
      if t = "" then none else some t
    | none => none
  ⟨normalizedPhone, firstName, lastName, email, emailUsername, domainRoot,
    normalizedInputUsername, companyText⟩

/-- External collaborators of a contact run: the `getById` fetch of the
enrolled contact, the store's search results per strategy number, and the
merge endpoint's response. -/
structure ContactEnv where
  fetch : Except String ContactProps
  results : Nat → Except String (List Candidate)
  mergeResult : Except String Unit

/-- dedupe-contact.js lines 81–88, `getCandidates`: a filtered search whose
results exclude the enrolled contact's own id. -/
def getCandidates (cid : String) (env : ContactEnv) (i : Nat) :
    Except String (List Candidate) :=
  (env.results i).map (List.filter (fun c => c.id != cid))

/-- The eight strategies of dedupe-contact.js lines 93–209, in source
order, with their gates and local filters: (1) name search filtered by equal
phone digits; (2) name+email search; (3) name search filtered by equal email
username; (4) email-only search; (5) free-text search filtered by equal
username and domain root, excluding the subject id; (6) free-text search
filtered by equal dot-insensitive username, excluding the subject id;
(7) name search filtered to candidates with no (or blank) email; (8) name
search filtered by equal trimmed lower-cased company text. -/
def contactSteps (cid : String) (props : ContactProps) (env : ContactEnv) : List Step :=
  let n := normalizeSubject props
  [⟨"name_phone",
      (match n.normalizedPhone with
        | some np => np != ""
        | none => false),
      getCandidates cid env 1,
      fun c => match n.normalizedPhone with
        | some np => (c.props.phone.map digitsOnly) == some np
        | none => false⟩,
   ⟨"name_email", n.email != "", getCandidates cid env 2, fun _ => true⟩,
   ⟨"name_email_username", n.emailUsername != "", getCandidates cid env 3,
      fun c => toLowerStr ((jsSplit '@' (c.props.email.getD "")).headD "") == n.emailUsername⟩,
   ⟨"email_only", n.email != "", getCandidates cid env 4, fun _ => true⟩,
   ⟨"username_domain_root", n.emailUsername != "" && n.domainRoot != "", env.results 5,
      fun c =>
        let cEmail := toLowerStr (c.props.email.getD "")
        let cUsername := (jsSplit '@' cEmail).headD ""
        let cDomainRoot := (jsSplit '.' ((jsSplit '@' cEmail).getD 1 "")).headD ""
        cUsername == n.emailUsername && cDomainRoot == n.domainRoot && c.id != cid⟩,
   ⟨"normalized_username", n.normalizedInputUsername != "", env.results 6,
      fun c =>
        let cEmail := toLowerStr (c.props.email.getD "")
        normalizeUsername ((jsSplit '@' cEmail).headD "") == n.normalizedInputUsername
          && c.id != cid⟩,
   ⟨"name_no_email", n.firstName != "" && n.lastName != "", getCandidates cid env 7,
      fun c => match c.props.email with
        | none => true
        | some e => jsTrim e == ""⟩,
   ⟨"name_company", n.firstName != "" && n.lastName != "" && n.companyText.isSome,
      getCandidates cid env 8,
      fun c => (c.props.company.map (fun s => toLowerStr (jsTrim s))) == n.companyText⟩]

/-- The cascade of dedupe-contact.js lines 90–209, started with empty
matches. -/
def contactPipelineOut (cid : String) (props : ContactProps) (env : ContactEnv) : PState :=
  runStepsFrom 1 (contactSteps cid props env) ⟨[], none, [], none⟩

/-- dedupe-contact.js lines 240–241, `getTimestamp`: the parsed
`hs_analytics_last_timestamp`, with a missing value giving
`new Date(0).getTime() = 0`. -/
def getTimestamp (c : Candidate) : Int := c.props.hs_analytics_last_timestamp.getD 0

/-- dedupe-contact.js lines 242–247: sorting the two-element array
`[enrolled, match]` by descending timestamp with the comparator
`getTimestamp(b) - getTimestamp(a)`; the first component is the survivor
(`primaryId`), the second the merge target. On equal timestamps the sort is
stable, keeping the enrolled contact first. -/
def survivorPair (enrolled cand : Candidate) : Candidate × Candidate :=
  if getTimestamp enrolled < getTimestamp cand then (cand, enrolled) else (enrolled, cand)

/-- The `outputFields` record a contact run returns. -/
structure ContactResult where
  status : String
  matchStep : String
  matchesFound : Nat
  reason : String
  primaryId : Option String
  mergedId : Option String
deriving DecidableEq

/-- Trace of the network calls a contact run issues: the initial record
fetch, the strategy numbers that searched, and merge calls. -/
structure ContactTrace where
  fetchCalls : Nat
  searchSteps : List Nat
  mergeCalls : Nat
deriving DecidableEq

/-- dedupe-contact.js lines 35–303, `main`: fetch the enrolled contact (a
failure lands in the catch-all, status `error`); short-circuit with
`skipped_no_value`/`missing_name` when the trimmed first or last name is
empty; run the cascade (a search error lands in the catch-all); empty final
matches give `no_match`, two or more give `ambiguous` with no merge call;
exactly one match selects the survivor by timestamp, a same-id anomaly gives
`ambiguous`/`same_ids`, and otherwise the merge is called, yielding `merged`
or the catch-all `error`. -/
def contactMain (cid : String) (env : ContactEnv) : ContactResult × ContactTrace :=
  match env.fetch with
  | .error e => (⟨"error", "none", 0, e, none, none⟩, ⟨1, [], 0⟩)
  | .ok props =>
    let n := normalizeSubject props
    if n.firstName = "" ∨ n.lastName = "" then
      (⟨"skipped_no_value", "none", 0, "missing_name", none, none⟩, ⟨1, [], 0⟩)
    else
      let out := contactPipelineOut cid props env
      match out.err with
      | some e => (⟨"error", "none", 0, e, none, none⟩, ⟨1, out.searched, 0⟩)
      | none =>
        if out.matchList.isEmpty then
          (⟨"no_match", "none", 0, "no_matching_contact", none, none⟩, ⟨1, out.searched, 0⟩)
        else if 1 < out.matchList.length then
          (⟨"ambiguous", out.matchStep.getD "none", out.matchList.length,
              "too_many_matches", none, none⟩, ⟨1, out.searched, 0⟩)
        else
          let enrolled : Candidate := ⟨cid, props⟩
          let cand := out.matchList.headD enrolled
          let pair := survivorPair enrolled cand
          if pair.1.id = pair.2.id then
            (⟨"ambiguous", out.matchStep.getD "none", 1, "same_ids", none, none⟩,
              ⟨1, out.searched, 0⟩)
          else
            match env.mergeResult with
            | .error e => (⟨"error", "none", 0, e, none, none⟩, ⟨1, out.searched, 1⟩)
            | .ok _ =>
              (⟨"merged", out.matchStep.getD "none", 1, "merge_successful",
                  some pair.1.id, some pair.2.id⟩, ⟨1, out.searched, 1⟩)

/-- Example enrolled subject for the witnesses. -/
def subjJane : ContactProps :=
  ⟨some "Jane", some "Doe", some "jane.doe@acme.com", some "(305) 391-4414", none, some 100⟩

/-- Example stored candidate with the same name and phone digits and a more
recent analytics timestamp. -/
def candJane : Candidate :=
  ⟨"77", ⟨some "Jane", some "Doe", some "jane@other.com", some "3053914414", none, some 200⟩⟩

/-- Environment in which strategy 1 returns exactly `candJane`. -/
def envJane : ContactEnv :=
  ⟨.ok subjJane, fun i => if i = 1 then .ok [candJane] else .ok [], .ok ()⟩




theorem contactPipelineOut_eq (cid : String) (props : ContactProps) (env : ContactEnv) :
    (contactPipelineOut cid props env).matchList =
      (specRun 1 (contactSteps cid props env)).matchList ∧
    (contactPipelineOut cid props env).searched =
      (specRun 1 (contactSteps cid props env)).searched ∧
    (contactPipelineOut cid props env).err =
      (specRun 1 (contactSteps cid props env)).err ∧
    (contactPipelineOut cid props env).matchStep =
      (specRun 1 (contactSteps cid props env)).matchStep := by
  unfold contactPipelineOut
  rw [runStepsFrom_spec]
  refine ⟨rfl, by simp, rfl, ?_⟩
  rcases h : (specRun 1 (contactSteps cid props env)).matchStep with _ | ms <;> simp [h]

/-- Claim C3: on every run that does not abort on a search error, the eight
strategies are evaluated top-down in source order (searched step numbers are
within 1..8 and strictly increasing), a strategy searches only when its
precondition holds, every strategy searched before another produced an empty
filtered set, and when the final match list is non-empty it is exactly the
filtered set of the last searched strategy, whose name is recorded, and no
later strategy issued a search. -/
theorem contact_pipeline_order (cid : String) (props : ContactProps) (env : ContactEnv)
    (herr : (contactPipelineOut cid props env).err = none) :
    (contactSteps cid props env).length = 8 ∧
    (∀ k ∈ (contactPipelineOut cid props env).searched, 1 ≤ k ∧ k ≤ 8) ∧
    (contactPipelineOut cid props env).searched.Pairwise (· < ·) ∧
    (∀ k ∈ (contactPipelineOut cid props env).searched,
      ((contactSteps cid props env).getD (k - 1) default).gate = true) ∧
    (∀ k ∈ (contactPipelineOut cid props env).searched,
      ∀ j ∈ (contactPipelineOut cid props env).searched, j < k →
        stepMatches ((contactSteps cid props env).getD (j - 1) default) = []) ∧
    ((contactPipelineOut cid props env).matchList ≠ [] →
      ∃ k ∈ (contactPipelineOut cid props env).searched,
        stepMatches ((contactSteps cid props env).getD (k - 1) default) =
          (contactPipelineOut cid props env).matchList ∧
        (contactPipelineOut cid props env).matchStep =
          some ((contactSteps cid props env).getD (k - 1) default).name ∧
        ∀ j ∈ (contactPipelineOut cid props env).searched, j ≤ k) := by
  obtain ⟨hml, hsr, herr2, hms⟩ := contactPipelineOut_eq cid props env
  rw [herr2] at herr
  refine ⟨rfl, ?_, ?_, ?_, ?_, ?_⟩
  · rw [hsr]
    intro k hk
    have := specRun_bounds (contactSteps cid props env) 1 k hk
    simp only [contactSteps, List.length_cons, List.length_nil] at this
    omega
  · rw [hsr]
    exact specRun_sorted (contactSteps cid props env) 1
  · rw [hsr]
    exact specRun_gate (contactSteps cid props env) 1
  · rw [hsr]
    intro k hk j hj hjk
    rcases specRun_outcome (contactSteps cid props env) 1 herr with
      ⟨_, _, hall⟩ | ⟨km, hkm, _, _, _, hall⟩
    · exact hall j hj
    · have h1 := hall k hk
      have h2 := hall j hj
      exact h2.2 (by omega)
  · rw [hml, hsr, hms]
    intro hne
    rcases specRun_outcome (contactSteps cid props env) 1 herr with
      ⟨h0, _, _⟩ | ⟨km, hkm, hsm, _, hstep, hall⟩
    · exact absurd h0 hne
    · exact ⟨km, hkm, hsm, hstep, fun j hj => (hall j hj).1⟩

/-- Claim C4: a strategy whose filtered set is empty does not halt the
pipeline — some later strategy still runs whenever a later one is gated on —
and a final filtered set of two or more members terminates the run with
status `ambiguous`, reason `too_many_matches`, and zero merge calls. -/
theorem contact_ambiguity_noop :
    (∀ (cid : String) (props : ContactProps) (env : ContactEnv) (k m : Nat),
      (contactPipelineOut cid props env).err = none →
      k ∈ (contactPipelineOut cid props env).searched →
      stepMatches ((contactSteps cid props env).getD (k - 1) default) = [] →
      k < m → m ≤ 8 →
      ((contactSteps cid props env).getD (m - 1) default).gate = true →
      ∃ j ∈ (contactPipelineOut cid props env).searched, k < j) ∧
    (∀ (cid : String) (env : ContactEnv) (props : ContactProps),
      env.fetch = .ok props →
      (normalizeSubject props).firstName ≠ "" →
      (normalizeSubject props).lastName ≠ "" →
      (contactPipelineOut cid props env).err = none →
      2 ≤ (contactPipelineOut cid props env).matchList.length →
      (contactMain cid env).1.status = "ambiguous" ∧
      (contactMain cid env).1.reason = "too_many_matches" ∧
      (contactMain cid env).1.matchesFound =
        (contactPipelineOut cid props env).matchList.length ∧
      (contactMain cid env).2.mergeCalls = 0) := by
  constructor
  · intro cid props env k m herr hk hkm hlt hm8 hgm
    obtain ⟨hml, hsr, herr2, hms⟩ := contactPipelineOut_eq cid props env
    rw [hsr] at hk ⊢
    rw [herr2] at herr
    exact specRun_proceeds (contactSteps cid props env) 1 herr k hk hkm m hlt
      (by simp only [contactSteps, List.length_cons]; omega) hgm
  · intro cid env props hf h1 h2 herr hlen
    have hne : (contactPipelineOut cid props env).matchList ≠ [] := by
      intro hx
      rw [hx] at hlen
      simp at hlen
    unfold contactMain
    rw [hf]
    dsimp only
    rw [if_neg (by tauto)]
    rw [herr]
    dsimp only
    rw [if_neg (by simp [List.isEmpty_iff, hne])]
    rw [if_pos (by omega)]
    exact ⟨rfl, rfl, rfl, rfl⟩

/-- Claim C1: a missing `hs_analytics_last_timestamp` is treated as the
epoch 0; for every pair of records, the one with the strictly larger
timestamp becomes the survivor and the other the merge target; and the
selection is total — it always returns the two records in one of the two
orders (equal or missing timestamps keep the enrolled record first). -/
theorem contact_survivor_selection :
    (∀ c : Candidate, c.props.hs_analytics_last_timestamp = none → getTimestamp c = 0) ∧
    (∀ e c : Candidate, getTimestamp e < getTimestamp c → survivorPair e c = (c, e)) ∧
    (∀ e c : Candidate, getTimestamp c < getTimestamp e → survivorPair e c = (e, c)) ∧
    (∀ e c : Candidate, survivorPair e c = (e, c) ∨ survivorPair e c = (c, e)) := by
  refine ⟨?_, ?_, ?_, ?_⟩
  · intro c h
    simp [getTimestamp, h]
  · intro e c h
    simp [survivorPair, h]
  · intro e c h
    rw [survivorPair, if_neg (by omega)]
  · intro e c
    rw [survivorPair]
    split
    · right; rfl
    · left; rfl

/-- A subject whose last name trims to empty. -/
def propsNoLast : ContactProps := ⟨some "Jane", some "   ", some "j@a.com", none, none, none⟩

/-- Environment fetching `propsNoLast`. -/
def envNoLast : ContactEnv := ⟨.ok propsNoLast, fun _ => .ok [], .ok ()⟩

/-- Counterexample for C7 as stated: a run that skips for a missing name
has already made the initial `getById` network fetch (`fetchCalls = 1`), so
it does not short-circuit before any network call, and its status literal is
`skipped_no_value`, not `skipped`. -/
theorem missing_name_counterexample :
    (contactMain "1" envNoLast).1.reason = "missing_name" ∧
    (contactMain "1" envNoLast).2.fetchCalls = 1 ∧
    (contactMain "1" envNoLast).1.status ≠ "skipped" := by
  refine ⟨by decide, by decide, by decide⟩

/-- Claim C7 (amended): whenever the fetched subject's trimmed first or
last name is empty, the run returns status `skipped_no_value` with reason
`missing_name`, issues zero searches and zero merge calls, and the only
network call made is the single initial record fetch. -/
theorem missing_name_short_circuit (cid : String) (env : ContactEnv) (props : ContactProps)
    (hf : env.fetch = .ok props)
    (h : (normalizeSubject props).firstName = "" ∨ (normalizeSubject props).lastName = "") :
    contactMain cid env =
      (⟨"skipped_no_value", "none", 0, "missing_name", none, none⟩, ⟨1, [], 0⟩) := by
  unfold contactMain
  rw [hf]
  dsimp only
  rw [if_pos h]

theorem run_status_contract_person (cid : String) (env : ContactEnv) :
    (contactMain cid env).1.status ∈
      ["skipped_no_value", "no_match", "ambiguous", "merged", "error"] := by
  unfold contactMain
  rcases he : env.fetch with e | props
  · simp
  · dsimp only
    by_cases hn : (normalizeSubject props).firstName = "" ∨
        (normalizeSubject props).lastName = ""
    · rw [if_pos hn]; simp
    · rw [if_neg hn]
      rcases herr : (contactPipelineOut cid props env).err with _ | e
      · dsimp only
        by_cases hie : (contactPipelineOut cid props env).matchList.isEmpty
        · rw [if_pos hie]; simp
        · rw [if_neg hie]
          by_cases hlen : 1 < (contactPipelineOut cid props env).matchList.length
          · rw [if_pos hlen]; simp
          · rw [if_neg hlen]
            split
            · simp
            · rcases hm : env.mergeResult with e | u
              · simp
              · simp
      · simp

/-- Witness for C3: the pipeline-order properties on a concrete successful
run. -/
theorem contact_pipeline_order_witness :
    (contactSteps "1" subjJane envJane).length = 8 ∧
    ∀ k ∈ (contactPipelineOut "1" subjJane envJane).searched, 1 ≤ k ∧ k ≤ 8 :=
  ⟨(contact_pipeline_order "1" subjJane envJane (by decide)).1,
   (contact_pipeline_order "1" subjJane envJane (by decide)).2.1⟩

/-- A second candidate with the same name and phone digits. -/
def candJane2 : Candidate :=
  ⟨"88", ⟨some "Jane", some "Doe", none, some "305-391-4414", none, none⟩⟩

/-- Environment in which strategy 1 returns two matching candidates. -/
def envAmb : ContactEnv :=
  ⟨.ok subjJane, fun i => if i = 1 then .ok [candJane, candJane2] else .ok [], .ok ()⟩

/-- Witness for C4: a run with two phone-matched candidates ends ambiguous
with no merge call. -/
theorem contact_ambiguity_noop_witness :
    (contactMain "1" envAmb).1.status = "ambiguous" ∧
    (contactMain "1" envAmb).2.mergeCalls = 0 :=
  ⟨(contact_ambiguity_noop.2 "1" envAmb subjJane rfl (by decide) (by decide)
      (by decide) (by decide)).1,
   (contact_ambiguity_noop.2 "1" envAmb subjJane rfl (by decide) (by decide)
      (by decide) (by decide)).2.2.2⟩

/-- Witness for C1: the candidate with the larger timestamp survives. -/
theorem contact_survivor_selection_witness :
    survivorPair ⟨"1", subjJane⟩ candJane = (candJane, ⟨"1", subjJane⟩) :=
  contact_survivor_selection.2.1 ⟨"1", subjJane⟩ candJane (by decide)

/-- Witness for C7: the concrete missing-name run returns the full skipped
result with one fetch, no searches, and no merges. -/
theorem missing_name_short_circuit_witness :
    contactMain "1" envNoLast =
      (⟨"skipped_no_value", "none", 0, "missing_name", none, none⟩, ⟨1, [], 0⟩) :=
  missing_name_short_circuit "1" envNoLast propsNoLast rfl (by decide)

/-! ### dedupe-company.js: run-boundary status strings -/

/-- JavaScript `isNaN(Number(s))`, modelled for the digit-string record ids
HubSpot workflows supply: `Number('')` is 0 (not NaN) and a non-empty trimmed
string parses exactly when it is all digits. Signs, decimals, exponents and
hex literals of the full JS numeric grammar are not modelled — workflow
object ids are plain digit strings. -/
def jsNumberIsNaN (s : String) : Bool :=
  let t := jsTrim s
  if t = "" then false else !(t.data.all Char.isDigit)

/-- dedupe-company.js lines 68–70: the input-id guard; `none` models an
absent/undefined input field, and a falsy or non-numeric id returns the
literal status string through the callback. -/
def companyGuardStatus (inputCompanyId : Option String) : Option String :=
  match inputCompanyId with
  | none => some "Missing or invalid company ID"
  | some s =>
    if s = "" || jsNumberIsNaN s then some "Missing or invalid company ID" else none

/-- dedupe-company.js line 130: the catch-all status string of the company
flow. -/
def companyFatalStatus (msg : String) : String := "Fatal error: " ++ msg

/-- Counterexample for C8 as stated: the missing-name person run returns
status `skipped_no_value`, which is not in the claimed five-status set, and
the company flow's guard path returns the free-form string
`Missing or invalid company ID`, also outside the set. -/
theorem run_status_enum_counterexample :
    (contactMain "1" envNoLast).1.status = "skipped_no_value" ∧
    ¬((contactMain "1" envNoLast).1.status ∈
        ["no_match", "ambiguous", "merged", "skipped", "error"]) ∧
    companyGuardStatus none = some "Missing or invalid company ID" ∧
    ¬("Missing or invalid company ID" ∈
        ["no_match", "ambiguous", "merged", "skipped", "error"]) := by
  refine ⟨by decide, by decide, rfl, by decide⟩

/-- Claim C8 (amended): every person run returns, without throwing, a result
whose status is one of `skipped_no_value`, `no_match`, `ambiguous`, `merged`,
`error`; the organization flow returns free-form status strings through the
same callback channel — `Missing or invalid company ID` on every guard
rejection and `Fatal error: <message>` from the catch-all. -/
theorem run_status_contract :
    (∀ (cid : String) (env : ContactEnv),
      (contactMain cid env).1.status ∈
        ["skipped_no_value", "no_match", "ambiguous", "merged", "error"]) ∧
    (∀ o : Option String, (companyGuardStatus o).isSome →
      companyGuardStatus o = some "Missing or invalid company ID") ∧
    (∀ m : String, companyFatalStatus m = "Fatal error: " ++ m) := by
  refine ⟨run_status_contract_person, ?_, fun m => rfl⟩
  intro o ho
  rcases o with _ | s
  · rfl
  · unfold companyGuardStatus at ho ⊢
    dsimp only at ho ⊢
    by_cases hc : s = "" || jsNumberIsNaN s
    · rw [if_pos hc]
    · rw [if_neg hc] at ho
      simp at ho

/-- Witness for C8: a concrete merged run's status is in the set, and a
falsy id takes the guard path. -/
theorem run_status_contract_witness :
    (contactMain "1" envJane).1.status ∈
      ["skipped_no_value", "no_match", "ambiguous", "merged", "error"] ∧
    companyGuardStatus (some "") = some "Missing or invalid company ID" :=
  ⟨run_status_contract.1 "1" envJane,
   run_status_contract.2.1 (some "") (by decide)⟩

end Hubspot
